import Mathlib

/-!
Verification of `smartdoc-rag/server/services/aiService.js`.

Strings are modelled as `List Char`, JavaScript numbers used as sizes as
`Int`, and embedding components as `ℚ` (the algebraic content of the
floating-point arithmetic; rounding is out of scope of the claims treated
here).  All definitions are executable and structurally recursive, so
concrete runs reduce by `decide` / `rfl`.
-/

namespace AIService

/-- Membership of a character in the sentence-terminator class `[.!?]` of the
regular expression in `splitTextIntoChunks`. -/
def isTerm (c : Char) : Bool := c = '.' || c = '!' || c = '?'

/-- Whitespace removed by JavaScript `String.prototype.trim` (ASCII part; the
full JS set also has Unicode spaces, which no input considered here uses). -/
def isWS (c : Char) : Bool := c = ' ' || c = '\t' || c = '\n' || c = '\r'

/-- `text.split(/[.!?]+/)`: split on maximal non-empty runs of sentence
terminators, keeping empty pieces at the ends (so `"a." ↦ ["a", ""]`,
`"" ↦ [""]`, `"a..b" ↦ ["a", "b"]`). -/
def splitSentences : List Char → List (List Char)
  | [] => [[]]
  | c :: rest =>
    if isTerm c then
      match rest with
      | [] => [[], []]
      | d :: _ =>
        if isTerm d then splitSentences rest
        else [] :: splitSentences rest
    else
      match splitSentences rest with
      | [] => [[c]]
      | p :: ps => (c :: p) :: ps

/-- `str.split(sep)` for a single-character separator, JavaScript semantics:
no collapsing of adjacent separators (`"a  b".split(' ') = ["a","","b"]`). -/
def splitOn (sep : Char) : List Char → List (List Char)
  | [] => [[]]
  | c :: rest =>
    if c = sep then [] :: splitOn sep rest
    else
      match splitOn sep rest with
      | [] => [[c]]
      | p :: ps => (c :: p) :: ps

/-- `str.trim()`: drop whitespace from both ends. -/
def trim (l : List Char) : List Char :=
  ((l.dropWhile isWS).reverse.dropWhile isWS).reverse

/-- Inner loop of `splitTextIntoChunks` (the `for (const word of words)` loop,
aiService.js lines 185–195): returns the list of chunks pushed by the loop and
the final value of `wordChunk`.  When `wordChunk` is empty and the word alone
overflows, the source pushes nothing and leaves `wordChunk` empty, silently
dropping the word. -/
def wordLoop (maxChunkSize : Int) :
    List (List Char) → List Char → List (List Char) × List Char
  | [], wordChunk => ([], wordChunk)
  | word :: ws, wordChunk =>
    if (wordChunk.length + 1 + word.length : Int) > maxChunkSize then
      if wordChunk ≠ [] then
        let r := wordLoop maxChunkSize ws word
        (trim wordChunk :: r.1, r.2)
      else wordLoop maxChunkSize ws wordChunk
    else wordLoop maxChunkSize ws (wordChunk ++ ' ' :: word)

/-- Outer loop of `splitTextIntoChunks` (the `for (const sentence of
sentences)` loop plus the final `if (currentChunk)` push, aiService.js lines
176–206): returns all chunks pushed, in order. -/
def sentLoop (maxChunkSize : Int) :
    List (List Char) → List Char → List (List Char)
  | [], currentChunk =>
    if currentChunk ≠ [] then [trim currentChunk] else []
  | sentence :: ss, currentChunk =>
    if (currentChunk.length + sentence.length : Int) > maxChunkSize then
      if currentChunk ≠ [] then
        trim currentChunk :: sentLoop maxChunkSize ss sentence
      else
        let r := wordLoop maxChunkSize (splitOn ' ' sentence) []
        r.1 ++ (if r.2 ≠ [] then [trim r.2] else [])
          ++ sentLoop maxChunkSize ss currentChunk
    else
      sentLoop maxChunkSize ss (currentChunk ++ sentence ++ ['.'])

/-- `splitTextIntoChunks(text, maxChunkSize)`, aiService.js lines 172–210:
split into sentences, pack them (or their words) into chunks, and drop empty
chunks at the end (`chunks.filter(chunk => chunk.length > 0)`). -/
def splitTextIntoChunks (text : List Char) (maxChunkSize : Int) :
    List (List Char) :=
  (sentLoop maxChunkSize (splitSentences text) []).filter
    (fun chunk => 0 < chunk.length)

/-- One step of the accumulation loop of `averageEmbeddings` (aiService.js
lines 224–228): `for (let i = 0; i < dimensions; i++) averaged[i] +=
embedding[i]`.  The iteration range is the accumulator's length; an
out-of-range read `embedding[i]` (possible only when input vectors have
unequal lengths, which the source never checks) is modelled as `0` where the
JS source would produce `NaN` — no claim treated here depends on the numeric
values in that unequal-length situation. -/
def addVec : List ℚ → List ℚ → List ℚ
  | [], _ => []
  | a :: acc, e => (a + e.headD 0) :: addVec acc (e.drop 1)

/-- `averageEmbeddings(embeddings)`, aiService.js lines 217–235: `[]` on no
input, the first vector itself on a single input, otherwise the element-wise
sum over an accumulator of the first vector's dimension, divided by the input
count. -/
def averageEmbeddings (embeddings : List (List ℚ)) : List ℚ :=
  if embeddings.length = 0 then []
  else if embeddings.length = 1 then embeddings.headD []
  else
    let dimensions := (embeddings.headD []).length
    let summed := embeddings.foldl addVec (List.replicate dimensions 0)
    summed.map (fun a => a / (embeddings.length : ℚ))

/-- `generateEmbeddings(text)`, aiService.js lines 16–45, with the external
embedding provider modelled as an oracle `embed` mapping a chunk to its
vector.  `Except.error` models the `throw` on empty input; `Except.ok none`
models the JS `return embeddings[0]` evaluating to `undefined` when the chunk
list is empty; otherwise the source averages when more than one chunk was
embedded and passes the single embedding through. -/
def generateEmbeddings (embed : List Char → List ℚ) (text : List Char) :
    Except String (Option (List ℚ)) :=
  if trim text = [] then .error "Text cannot be empty"
  else
    let chunks := splitTextIntoChunks text 8000
    let embeddings := chunks.map embed
    if 1 < embeddings.length then .ok (some (averageEmbeddings embeddings))
    else .ok embeddings.head?

lemma addVec_length (acc e : List ℚ) : (addVec acc e).length = acc.length := by
  induction acc generalizing e with
  | nil => rfl
  | cons a acc ih => simp [addVec, ih]

lemma addVec_getD (acc e : List ℚ) (i : ℕ) (h : i < acc.length) :
    (addVec acc e).getD i 0 = acc.getD i 0 + e.getD i 0 := by
  induction acc generalizing e i with
  | nil => simp at h
  | cons a acc ih =>
    cases i with
    | zero =>
      show a + e.headD 0 = a + e.getD 0 0
      cases e <;> rfl
    | succ i =>
      have hi : i < acc.length := by simpa using h
      show (addVec acc (e.drop 1)).getD i 0
        = acc.getD i 0 + e.getD (i + 1) 0
      cases e with
      | nil => rw [ih _ _ hi]; rfl
      | cons b e => rw [ih _ _ hi]; rfl

lemma foldl_addVec_length (vs : List (List ℚ)) (acc : List ℚ) :
    (vs.foldl addVec acc).length = acc.length := by
  induction vs generalizing acc with
  | nil => rfl
  | cons v vs ih => simp [List.foldl_cons, ih, addVec_length]

lemma foldl_addVec_getD (vs : List (List ℚ)) (acc : List ℚ) (i : ℕ)
    (h : i < acc.length) :
    (vs.foldl addVec acc).getD i 0
      = acc.getD i 0 + (vs.map (fun v => v.getD i 0)).sum := by
  induction vs generalizing acc with
  | nil => simp
  | cons v vs ih =>
    have h' : i < (addVec acc v).length := by rwa [addVec_length]
    simp only [List.foldl_cons, ih _ h', addVec_getD _ _ _ h, List.map_cons,
      List.sum_cons]
    ring

lemma getD_replicate_zero (n i : ℕ) :
    (List.replicate n (0 : ℚ)).getD i 0 = 0 := by
  rcases Nat.lt_or_ge i n with h | h
  · rw [List.getD_eq_getElem _ _ (by simpa using h), List.getElem_replicate]
  · rw [List.getD_eq_default _ _ (by simpa using h)]

lemma getD_map_div (l : List ℚ) (c : ℚ) (i : ℕ) :
    (l.map (fun a => a / c)).getD i 0 = l.getD i 0 / c := by
  rcases Nat.lt_or_ge i l.length with h | h
  · rw [List.getD_eq_getElem _ _ (by simpa using h), List.getElem_map,
      List.getD_eq_getElem _ _ h]
  · rw [List.getD_eq_default _ _ (by simpa using h),
      List.getD_eq_default _ _ h, zero_div]

lemma ext_getD (l₁ l₂ : List ℚ) (hlen : l₁.length = l₂.length)
    (h : ∀ i, i < l₁.length → l₁.getD i 0 = l₂.getD i 0) : l₁ = l₂ := by
  apply List.ext_getElem hlen
  intro i h₁ h₂
  have := h i h₁
  rwa [List.getD_eq_getElem _ _ h₁, List.getD_eq_getElem _ _ h₂] at this

lemma averageEmbeddings_length_of_two_le (vs : List (List ℚ))
    (h2 : 2 ≤ vs.length) :
    (averageEmbeddings vs).length = (vs.headD []).length := by
  have h0 : ¬vs.length = 0 := by omega
  have h1 : ¬vs.length = 1 := by omega
  simp [averageEmbeddings, h0, h1, foldl_addVec_length]

lemma averageEmbeddings_getD_of_two_le (vs : List (List ℚ))
    (h2 : 2 ≤ vs.length) (i : ℕ) (hi : i < (vs.headD []).length) :
    (averageEmbeddings vs).getD i 0
      = (vs.map (fun v => v.getD i 0)).sum / (vs.length : ℚ) := by
  have h0 : ¬vs.length = 0 := by omega
  have h1 : ¬vs.length = 1 := by omega
  have hrep : i < (List.replicate (vs.headD []).length (0 : ℚ)).length := by
    simpa using hi
  simp only [averageEmbeddings, h0, h1, if_false, getD_map_div,
    foldl_addVec_getD _ _ _ hrep, getD_replicate_zero, zero_add]

/-- Claim C6: `averageEmbeddings` applied to the empty sequence returns the empty
vector (the source's `if (embeddings.length === 0) return []`); no exception
is raised. -/
theorem averageEmbeddings_nil : averageEmbeddings [] = [] := rfl

/-- Claim C4: `averageEmbeddings` on a single vector returns that vector itself
(the source's `if (embeddings.length === 1) return embeddings[0]`); the model
is pure and the branch performs no write to the input, so the caller's vector
is not mutated. -/
theorem averageEmbeddings_singleton (v : List ℚ) :
    averageEmbeddings [v] = v := by
  simp [averageEmbeddings]

/-- Claim C3: on two or more vectors all of length `d`, `averageEmbeddings` returns
a vector of length `d` whose `i`-th component is the sum of the inputs' `i`-th
components divided by the number of inputs. -/
theorem averageEmbeddings_componentwise_mean (vs : List (List ℚ)) (d : ℕ)
    (h2 : 2 ≤ vs.length) (hd : ∀ v ∈ vs, v.length = d) :
    (averageEmbeddings vs).length = d ∧
    ∀ i, i < d → (averageEmbeddings vs).getD i 0
        = (vs.map (fun v => v.getD i 0)).sum / (vs.length : ℚ) := by
  have hne : vs ≠ [] := by
    intro h
    rw [h] at h2
    simp at h2
  have hhead : vs.headD [] ∈ vs := by
    cases vs with
    | nil => exact absurd rfl hne
    | cons v vs => simp
  have hlen : (vs.headD []).length = d := hd _ hhead
  refine ⟨by rw [averageEmbeddings_length_of_two_le vs h2, hlen], ?_⟩
  intro i hi
  exact averageEmbeddings_getD_of_two_le vs h2 i (by omega)

/-- Witness for C3 at the spec's example input `[[1,2,3],[3,4,5]]`. -/
theorem averageEmbeddings_componentwise_mean_witness :
    (averageEmbeddings [[1,2,3],[3,4,5]]).length = 3 ∧
    ∀ i, i < 3 → (averageEmbeddings [[1,2,3],[3,4,5]]).getD i 0
        = (([[1,2,3],[3,4,5]] : List (List ℚ)).map (fun v => v.getD i 0)).sum
          / (([[1,2,3],[3,4,5]] : List (List ℚ)).length : ℚ) :=
  averageEmbeddings_componentwise_mean [[1,2,3],[3,4,5]] 3 (by decide)
    (by decide)

example : averageEmbeddings [[1,2,3],[3,4,5]] = [2,3,4] := by
  norm_num [averageEmbeddings, addVec, List.replicate]

/-- Claim C5: for equal-length input vectors, `averageEmbeddings` is invariant under
permutation of the input list (exact arithmetic). -/
theorem averageEmbeddings_perm_invariant (vs₁ vs₂ : List (List ℚ)) (d : ℕ)
    (hperm : List.Perm vs₁ vs₂) (hd : ∀ v ∈ vs₁, v.length = d) :
    averageEmbeddings vs₁ = averageEmbeddings vs₂ := by
  have hlen := hperm.length_eq
  have hd₂ : ∀ v ∈ vs₂, v.length = d := fun v hv =>
    hd v (hperm.mem_iff.mpr hv)
  match vs₁, hperm, hd, hlen with
  | [], hperm, _, _ => rw [List.perm_nil.mp hperm.symm]
  | [v], hperm, _, _ => rw [List.perm_singleton.mp hperm.symm]
  | v₁ :: v₁' :: t₁, hperm, hd, hlen =>
    have h2 : 2 ≤ (v₁ :: v₁' :: t₁).length := by
      simp only [List.length_cons]
      omega
    have hlen' : t₁.length + 1 + 1 = vs₂.length := by
      simpa using hlen
    have h2' : 2 ≤ vs₂.length := by omega
    have hne₂ : vs₂ ≠ [] := by
      intro h
      rw [h] at hlen'
      simp at hlen'
    have hhead₁ : ((v₁ :: v₁' :: t₁).headD []).length = d := hd _ (by simp)
    have hhead₂ : (vs₂.headD []).length = d := by
      cases vs₂ with
      | nil => exact absurd rfl hne₂
      | cons w ws => exact hd₂ _ (by simp)
    apply ext_getD
    · rw [averageEmbeddings_length_of_two_le _ h2,
        averageEmbeddings_length_of_two_le _ h2', hhead₁, hhead₂]
    · intro i hi
      have hi' : i < ((v₁ :: v₁' :: t₁).headD []).length := by
        rwa [averageEmbeddings_length_of_two_le _ h2] at hi
      rw [averageEmbeddings_getD_of_two_le _ h2 i hi',
        averageEmbeddings_getD_of_two_le _ h2' i (by omega),
        (hperm.map (fun v => v.getD i 0)).sum_eq, hlen]

/-- Witness for C5 at a concrete pair of permuted vector lists. -/
theorem averageEmbeddings_perm_invariant_witness :
    averageEmbeddings [[1,2],[3,4]] = averageEmbeddings [[3,4],[1,2]] :=
  averageEmbeddings_perm_invariant [[1,2],[3,4]] [[3,4],[1,2]] 2
    (List.Perm.swap [3,4] [1,2] []) (by decide)

/-- Claim C8: for non-empty input, the averaged vector's length equals the first
input vector's length, with no constraint on the other vectors' lengths. -/
theorem averageEmbeddings_length_eq_head (vs : List (List ℚ)) (h : vs ≠ []) :
    (averageEmbeddings vs).length = (vs.headD []).length := by
  match vs with
  | [] => exact absurd rfl h
  | [v] => simp [averageEmbeddings]
  | v :: v' :: t =>
    exact averageEmbeddings_length_of_two_le _
      (by simp only [List.length_cons]; omega)

/-- Witness for C8 at input vectors of unequal lengths. -/
theorem averageEmbeddings_length_eq_head_witness :
    (averageEmbeddings [[1,2],[3]]).length
      = (([[1,2],[3]] : List (List ℚ)).headD []).length :=
  averageEmbeddings_length_eq_head [[1,2],[3]] (by decide)

/-- Claim C7: when chunking the text with the source's fixed budget 8000 yields
exactly one chunk, `generateEmbeddings` passes the provider's embedding of
that chunk through unchanged, with no averaging. -/
theorem generateEmbeddings_single_chunk_passthrough
    (embed : List Char → List ℚ) (text : List Char) (c : List Char)
    (hne : trim text ≠ []) (hc : splitTextIntoChunks text 8000 = [c]) :
    generateEmbeddings embed text = .ok (some (embed c)) := by
  simp [generateEmbeddings, hne, hc]

/-- Witness for C7 at the text `"hi"` (single chunk `"hi."`). -/
theorem generateEmbeddings_single_chunk_passthrough_witness :
    trim "hi".toList ≠ [] ∧
    generateEmbeddings (fun _ => ([1] : List ℚ)) "hi".toList
      = .ok (some ((fun _ => ([1] : List ℚ)) "hi.".toList)) :=
  ⟨by decide,
    generateEmbeddings_single_chunk_passthrough (fun _ => ([1] : List ℚ))
      "hi".toList "hi.".toList (by decide) (by decide)⟩

example : splitSentences "a.bc de fg.".toList =
    ["a".toList, "bc de fg".toList, []] := by decide

example : splitTextIntoChunks "a.bc de fg.".toList 3 =
    ["a.".toList, "bc de fg".toList] := by decide

example : splitTextIntoChunks [] 5 = [['.']] := by decide

example : splitTextIntoChunks "   ".toList 2 = [] := by decide

example : splitTextIntoChunks "  a a.a".toList 3 =
    ["a a".toList, "a.".toList] := by decide

lemma splitSentences_cons (c : Char) (rest : List Char) :
    splitSentences (c :: rest) =
      if isTerm c then
        match rest with
        | [] => [[], []]
        | d :: _ =>
          if isTerm d then splitSentences rest
          else [] :: splitSentences rest
      else
        match splitSentences rest with
        | [] => [[c]]
        | p :: ps => (c :: p) :: ps := rfl

lemma splitOn_length_le (sep : Char) (l : List Char) :
    (splitOn sep l).length ≤ l.length + 1 := by
  induction l with
  | nil => simp [splitOn]
  | cons c rest ih =>
    by_cases h : c = sep
    · simp only [splitOn, if_pos h, List.length_cons]
      omega
    · simp only [splitOn, if_neg h]
      cases hm : splitOn sep rest with
      | nil => simp
      | cons p ps =>
        rw [hm] at ih
        simp only [List.length_cons] at ih ⊢
        omega

lemma splitSentences_length (l : List Char) :
    (splitSentences l).length ≤ l.length + 1 := by
  induction l with
  | nil => simp [splitSentences]
  | cons c rest ih =>
    rw [splitSentences_cons]
    by_cases h : isTerm c
    · rw [if_pos h]
      cases rest with
      | nil => simp
      | cons d rest' =>
        by_cases hd : isTerm d
        · simp only [hd, if_true, List.length_cons] at ih ⊢
          omega
        · simp only [hd, if_false, Bool.false_eq_true, List.length_cons]
          simp only [List.length_cons] at ih
          omega
    · rw [if_neg h]
      cases hm : splitSentences rest with
      | nil => simp
      | cons p ps =>
        rw [hm] at ih
        simp only [List.length_cons] at ih ⊢
        omega

lemma splitSentences_sum (l : List Char) :
    ((splitSentences l).map List.length).sum ≤ l.length := by
  induction l with
  | nil => simp [splitSentences]
  | cons c rest ih =>
    rw [splitSentences_cons]
    by_cases h : isTerm c
    · rw [if_pos h]
      cases rest with
      | nil => simp
      | cons d rest' =>
        by_cases hd : isTerm d
        · simp only [hd, if_true, List.length_cons] at ih ⊢
          omega
        · simp only [hd, if_false, Bool.false_eq_true, List.map_cons,
            List.sum_cons, List.length_nil, List.length_cons]
          simp only [List.length_cons] at ih
          omega
    · rw [if_neg h]
      cases hm : splitSentences rest with
      | nil => simp
      | cons p ps =>
        rw [hm] at ih
        simp only [List.map_cons, List.sum_cons, List.length_cons] at ih ⊢
        omega

lemma wordLoop_count (m : Int) (ws : List (List Char)) (wc : List Char) :
    (wordLoop m ws wc).1.length ≤ ws.length := by
  induction ws generalizing wc with
  | nil => simp [wordLoop]
  | cons w ws ih =>
    simp only [wordLoop]
    by_cases h1 : (wc.length + 1 + w.length : Int) > m
    · simp only [if_pos h1]
      by_cases h2 : wc = []
      · simp only [h2, ne_eq, not_true_eq_false, if_false, List.length_cons]
        exact le_trans (ih []) (Nat.le_succ _)
      · simp only [ne_eq, h2, not_false_eq_true, if_true, List.length_cons]
        exact Nat.succ_le_succ (ih w)
    · simp only [if_neg h1]
      exact le_trans (ih _) (Nat.le_succ _)

lemma sentLoop_count (m : Int) (ss : List (List Char)) (cur : List Char) :
    (sentLoop m ss cur).length
      ≤ (ss.map (fun s => (splitOn ' ' s).length + 1)).sum + 1 := by
  induction ss generalizing cur with
  | nil =>
    by_cases h : cur = [] <;>
      simp [sentLoop, h]
  | cons s ss ih =>
    simp only [sentLoop, List.map_cons, List.sum_cons]
    by_cases h1 : (cur.length + s.length : Int) > m
    · simp only [if_pos h1]
      by_cases h2 : cur = []
      · simp only [h2, ne_eq, not_true_eq_false, if_false, List.length_append]
        have ha := wordLoop_count m (splitOn ' ' s) []
        have hb := ih ([] : List Char)
        have hc : (if ¬(wordLoop m (splitOn ' ' s) []).2 = [] then
            [trim (wordLoop m (splitOn ' ' s) []).2] else []).length ≤ 1 := by
          by_cases hw : (wordLoop m (splitOn ' ' s) []).2 = [] <;> simp [hw]
        omega
      · simp only [ne_eq, h2, not_false_eq_true, if_true, List.length_cons]
        have := ih s
        omega
    · simp only [if_neg h1]
      have := ih (cur ++ s ++ ['.'])
      omega

lemma sum_map_len_add_two (ss : List (List Char)) :
    (ss.map (fun s => s.length + 2)).sum
      = (ss.map List.length).sum + 2 * ss.length := by
  induction ss with
  | nil => simp
  | cons s ss ih =>
    simp only [List.map_cons, List.sum_cons, List.length_cons, ih]
    ring

lemma chunks_length_le (text : List Char) (m : Int) :
    (splitTextIntoChunks text m).length ≤ 3 * text.length + 3 := by
  have hfil : (splitTextIntoChunks text m).length
      ≤ (sentLoop m (splitSentences text) []).length :=
    List.length_filter_le _ _
  have h1 := sentLoop_count m (splitSentences text) []
  have h2 : ((splitSentences text).map
        (fun s => (splitOn ' ' s).length + 1)).sum
      ≤ ((splitSentences text).map (fun s => s.length + 2)).sum := by
    apply List.sum_le_sum
    intro s _
    have := splitOn_length_le ' ' s
    omega
  have h3 := sum_map_len_add_two (splitSentences text)
  have h4 := splitSentences_sum text
  have h5 := splitSentences_length text
  omega

/-- Claim C10: `splitTextIntoChunks` is a total function: for every text and every
integer `maxChunkSize` — zero and negative values included — it yields a
finite list, explicitly bounded by `3·|text| + 3` chunks (one chunk per
sentence push, at most one per word, plus the final pushes; all loops range
over the finite sentence and word lists). -/
theorem splitTextIntoChunks_total_bound (text : List Char)
    (maxChunkSize : Int) :
    (splitTextIntoChunks text maxChunkSize).length ≤ 3 * text.length + 3 :=
  chunks_length_le text maxChunkSize

/-- Claim C9 counterexample: for the text `"  a a.a"` and `maxChunkSize = 3` the
source emits the 2 chunks `["a a", "a."]`; re-chunking their concatenation
`"a aa."` with the same bound emits the 3 chunks `["a", "aa", "."]`, a strict
increase, so re-chunking is not stable. -/
theorem rechunk_count_cex :
    (splitTextIntoChunks "  a a.a".toList 3).length = 2 ∧
    (splitTextIntoChunks
        ((splitTextIntoChunks "  a a.a".toList 3).flatten) 3).length = 3 := by
  decide

/-- Claim C9 amended: re-chunking the concatenation of the emitted chunks can
strictly increase the chunk count; the re-chunked count is only subject to
the chunker's general output bound of `3·L + 3` where `L` is the
concatenation's length. -/
theorem rechunk_count_bound (text : List Char) (maxChunkSize : Int) :
    (splitTextIntoChunks
        ((splitTextIntoChunks text maxChunkSize).flatten) maxChunkSize).length
      ≤ 3 * ((splitTextIntoChunks text maxChunkSize).flatten).length + 3 :=
  chunks_length_le _ _

/-- Claim C2 counterexample: on the empty string with `maxChunkSize = 5` the source
returns `["."]`, not the empty sequence: the lone empty sentence takes the
`currentChunk += sentence + '.'` branch and the final push emits `"."`. -/
theorem empty_text_chunks_cex :
    splitTextIntoChunks [] 5 = [['.']] ∧
    ([['.']] : List (List Char)) ≠ [] := by
  decide

/-- Claim C2 amended: for every `maxChunkSize > 0` the empty string chunks to
`["."]`, and the all-whitespace string `"   "` chunks to `["."]` when
`maxChunkSize ≥ 3` (the spaces are absorbed into `currentChunk` and trimmed
away around the appended period) and to `[]` when `maxChunkSize < 3` (the
word-splitting path emits only empty, filtered-out chunks). -/
theorem empty_and_whitespace_chunks (maxChunkSize : Int)
    (h : 0 < maxChunkSize) :
    splitTextIntoChunks [] maxChunkSize = [['.']] ∧
    splitTextIntoChunks "   ".toList maxChunkSize
      = if 3 ≤ maxChunkSize then [['.']] else [] := by
  constructor
  · have hc : ¬(((([] : List Char).length : Int)
        + (([] : List Char).length : Int)) > maxChunkSize) := by
      simp only [List.length_nil, Nat.cast_zero, add_zero]
      omega
    simp [splitTextIntoChunks, splitSentences, sentLoop, hc, trim, isWS]
    rw [if_neg (by omega : ¬maxChunkSize < 0)]
    rfl
  · by_cases h3 : 3 ≤ maxChunkSize
    · have hc : ¬(((([] : List Char).length : Int)
          + (("   ".toList : List Char).length : Int)) > maxChunkSize) := by
        simp only [List.length_nil, Nat.cast_zero, zero_add]
        have : ("   ".toList : List Char).length = 3 := by decide
        rw [this]
        omega
      rw [if_pos h3]
      simp [splitTextIntoChunks, splitSentences, sentLoop, hc, trim, isWS]
      rw [if_neg (by omega : ¬maxChunkSize < 3)]
      rfl
    · rw [if_neg h3]
      have : maxChunkSize = 1 ∨ maxChunkSize = 2 := by omega
      rcases this with h' | h' <;> rw [h'] <;> decide

lemma dropWhile_length_le (p : Char → Bool) (l : List Char) :
    (l.dropWhile p).length ≤ l.length := by
  induction l with
  | nil => simp
  | cons c rest ih =>
    rw [List.dropWhile_cons]
    by_cases h : p c = true <;> simp only [h, if_true, if_false,
      Bool.false_eq_true, List.length_cons] <;> omega

lemma trim_length_le (l : List Char) : (trim l).length ≤ l.length := by
  unfold trim
  calc ((l.dropWhile isWS).reverse.dropWhile isWS).reverse.length
      = ((l.dropWhile isWS).reverse.dropWhile isWS).length :=
        List.length_reverse _
    _ ≤ (l.dropWhile isWS).reverse.length := dropWhile_length_le _ _
    _ = (l.dropWhile isWS).length := List.length_reverse _
    _ ≤ l.length := dropWhile_length_le _ _

lemma trim_length_le_int (l : List Char) (m : Int) (h : (l.length : Int) ≤ m) :
    ((trim l).length : Int) ≤ m := by
  have := trim_length_le l
  omega

lemma wordLoop_cons (m : Int) (w : List Char) (ws : List (List Char))
    (wc : List Char) :
    wordLoop m (w :: ws) wc =
      if (wc.length + 1 + w.length : Int) > m then
        if wc ≠ [] then
          (trim wc :: (wordLoop m ws w).1, (wordLoop m ws w).2)
        else wordLoop m ws wc
      else wordLoop m ws (wc ++ ' ' :: w) := rfl

lemma wordLoop_inv (m : Int) (W : List (List Char)) (ws : List (List Char)) :
    ∀ (wc : List Char), (∀ w ∈ ws, w ∈ W) →
      ((wc.length : Int) ≤ m ∨ wc ∈ W) →
      ((∀ c ∈ (wordLoop m ws wc).1,
          (c.length : Int) ≤ m ∨ ∃ w ∈ W, c = trim w)
        ∧ (((wordLoop m ws wc).2.length : Int) ≤ m
            ∨ (wordLoop m ws wc).2 ∈ W)) := by
  induction ws with
  | nil =>
    intro wc _ hwc
    exact ⟨fun c hc => absurd hc (List.not_mem_nil c), hwc⟩
  | cons w ws ih =>
    intro wc hsub hwc
    rw [wordLoop_cons]
    by_cases h1 : (wc.length + 1 + w.length : Int) > m
    · rw [if_pos h1]
      by_cases h2 : wc = []
      · rw [if_neg (by simpa using h2)]
        exact ih wc (fun x hx => hsub x (List.mem_cons_of_mem _ hx)) hwc
      · rw [if_pos h2]
        have hrest := ih w (fun x hx => hsub x (List.mem_cons_of_mem _ hx))
          (Or.inr (hsub w (List.mem_cons_self _ _)))
        refine ⟨?_, hrest.2⟩
        intro c hc
        rcases List.mem_cons.mp hc with rfl | hc'
        · rcases hwc with hle | hmem
          · exact Or.inl (trim_length_le_int wc m hle)
          · exact Or.inr ⟨wc, hmem, rfl⟩
        · exact hrest.1 c hc'
    · rw [if_neg h1]
      apply ih _ (fun x hx => hsub x (List.mem_cons_of_mem _ hx))
      left
      have h1' : (wc.length : Int) + 1 + w.length ≤ m := not_lt.mp h1
      simp only [List.length_append, List.length_cons]
      push_cast
      omega

lemma sentLoop_cons (m : Int) (s : List Char) (ss : List (List Char))
    (cur : List Char) :
    sentLoop m (s :: ss) cur =
      if (cur.length + s.length : Int) > m then
        if cur ≠ [] then
          trim cur :: sentLoop m ss s
        else
          (wordLoop m (splitOn ' ' s) []).1
            ++ (if (wordLoop m (splitOn ' ' s) []).2 ≠ [] then
                  [trim (wordLoop m (splitOn ' ' s) []).2] else [])
            ++ sentLoop m ss cur
      else sentLoop m ss (cur ++ s ++ ['.']) := rfl

lemma sentLoop_inv (m : Int) (hm : 0 < m) (S : List (List Char))
    (ss : List (List Char)) :
    ∀ (cur : List Char), (∀ s ∈ ss, s ∈ S) →
      ((cur.length : Int) ≤ m + 1 ∨ cur ∈ S) →
      ∀ c ∈ sentLoop m ss cur,
        (c.length : Int) ≤ m + 1
        ∨ (∃ s ∈ S, c = trim s)
        ∨ (∃ s ∈ S, ∃ w ∈ splitOn ' ' s, c = trim w) := by
  induction ss with
  | nil =>
    intro cur _ hcur c hc
    by_cases h : cur = []
    · rw [show sentLoop m [] cur
          = if cur ≠ [] then [trim cur] else [] from rfl,
        if_neg (by simpa using h)] at hc
      exact absurd hc (List.not_mem_nil c)
    · rw [show sentLoop m [] cur
          = if cur ≠ [] then [trim cur] else [] from rfl,
        if_pos h] at hc
      have hceq : c = trim cur := by simpa using hc
      subst hceq
      rcases hcur with hle | hmem
      · exact Or.inl (trim_length_le_int cur _ hle)
      · exact Or.inr (Or.inl ⟨cur, hmem, rfl⟩)
  | cons s ss ih =>
    intro cur hsub hcur c hc
    rw [sentLoop_cons] at hc
    by_cases h1 : (cur.length + s.length : Int) > m
    · rw [if_pos h1] at hc
      by_cases h2 : cur = []
      · rw [if_neg (by simpa using h2)] at hc
        have hword := wordLoop_inv m (splitOn ' ' s) (splitOn ' ' s) []
          (fun w hw => hw)
          (Or.inl (by simp only [List.length_nil, Nat.cast_zero]; omega))
        have hsS : s ∈ S := hsub s (List.mem_cons_self _ _)
        rcases List.mem_append.mp hc with hcl | hcr
        · rcases List.mem_append.mp hcl with hca | hcb
          · rcases hword.1 c hca with hle | ⟨w, hw, rfl⟩
            · exact Or.inl (by omega)
            · exact Or.inr (Or.inr ⟨s, hsS, w, hw, rfl⟩)
          · by_cases hw2 : (wordLoop m (splitOn ' ' s) []).2 = []
            · rw [if_neg (by simpa using hw2)] at hcb
              exact absurd hcb (List.not_mem_nil c)
            · rw [if_pos hw2] at hcb
              have hceq : c = trim (wordLoop m (splitOn ' ' s) []).2 := by
                simpa using hcb
              subst hceq
              rcases hword.2 with hle | hmem
              · exact Or.inl (trim_length_le_int _ _ (by omega))
              · exact Or.inr (Or.inr ⟨s, hsS, _, hmem, rfl⟩)
        · exact ih cur (fun x hx => hsub x (List.mem_cons_of_mem _ hx))
            (by
              subst h2
              exact Or.inl
                (by simp only [List.length_nil, Nat.cast_zero]; omega))
            c hcr
      · rw [if_pos h2] at hc
        rcases List.mem_cons.mp hc with rfl | hc'
        · rcases hcur with hle | hmem
          · exact Or.inl (trim_length_le_int cur _ hle)
          · exact Or.inr (Or.inl ⟨cur, hmem, rfl⟩)
        · exact ih s (fun x hx => hsub x (List.mem_cons_of_mem _ hx))
            (Or.inr (hsub s (List.mem_cons_self _ _))) c hc'
    · rw [if_neg h1] at hc
      apply ih _ (fun x hx => hsub x (List.mem_cons_of_mem _ hx)) _ c hc
      left
      have h1' : (cur.length : Int) + s.length ≤ m := not_lt.mp h1
      simp only [List.length_append, List.length_cons, List.length_nil]
      push_cast
      omega

/-- Claim C1 counterexample: for the text `"a.bc de fg."` and `maxChunkSize = 3`
the source emits the chunk `"bc de fg"` of length 8: a chunk longer than
`maxChunkSize` that contains whitespace, so it is not a single
whitespace-free token.  (A long sentence assigned to `currentChunk` after a
push is later emitted whole, bypassing the word-splitting path.) -/
theorem chunk_size_bound_cex :
    "bc de fg".toList ∈ splitTextIntoChunks "a.bc de fg.".toList 3 ∧
    3 < ("bc de fg".toList.length : Int) ∧ ' ' ∈ "bc de fg".toList := by
  decide

/-- Claim C1 amended: for `maxChunkSize > 0`, every emitted chunk either has length
at most `maxChunkSize + 1` (the appended `'.'` is not counted by the overflow
check, so accumulated chunks may exceed the bound by one), or is the trim of
a whole sentence of the input (an over-long sentence assigned to
`currentChunk` after a push is emitted unsplit, whitespace and all), or is
the trim of a single space-delimited word of a sentence (the word-splitting
path emits an over-long word unsplit). -/
theorem chunk_size_characterization (text : List Char) (maxChunkSize : Int)
    (h : 0 < maxChunkSize) :
    ∀ c ∈ splitTextIntoChunks text maxChunkSize,
      (c.length : Int) ≤ maxChunkSize + 1
      ∨ (∃ s ∈ splitSentences text, c = trim s)
      ∨ (∃ s ∈ splitSentences text, ∃ w ∈ splitOn ' ' s, c = trim w) := by
  intro c hc
  have hc' : c ∈ sentLoop maxChunkSize (splitSentences text) [] :=
    List.mem_of_mem_filter hc
  exact sentLoop_inv maxChunkSize h (splitSentences text) (splitSentences text)
    [] (fun s hs => hs)
    (Or.inl (by simp only [List.length_nil, Nat.cast_zero]; omega)) c hc'

/-- Witness for C1 (amended) at the counterexample input: the over-long chunk
`"bc de fg"` is the trim of a whole sentence of the text. -/
theorem chunk_size_characterization_witness :
    (0 : Int) < 3 ∧
    ((("bc de fg".toList : List Char).length : Int) ≤ 3 + 1
      ∨ (∃ s ∈ splitSentences "a.bc de fg.".toList,
          "bc de fg".toList = trim s)
      ∨ (∃ s ∈ splitSentences "a.bc de fg.".toList,
          ∃ w ∈ splitOn ' ' s, "bc de fg".toList = trim w)) :=
  ⟨by decide,
    chunk_size_characterization "a.bc de fg.".toList 3 (by decide)
      "bc de fg".toList (by decide)⟩

/-- Witness for C2 (amended) at `maxChunkSize = 5`. -/
theorem empty_and_whitespace_chunks_witness :
    splitTextIntoChunks [] 5 = [['.']] ∧
    splitTextIntoChunks "   ".toList 5 = if 3 ≤ (5 : Int) then [['.']] else [] :=
  empty_and_whitespace_chunks 5 (by decide)

end AIService
